import Mathlib

/-!
# ForceCLI/config: a directory-backed key/value store

Shallow embedding of `config.go` and `posix.go`.

The Go methods of `Config` are pure functions over an explicit `World`: the
file system, the working directory of the process, the environment and the
outcome of the external home-directory lookup.  Mutating methods return the
world after the call together with the returned `error` (`none` for `nil`).

The operating-system and standard-library calls the methods make
(`path.Join`, `filepath.Dir`, `os.MkdirAll`, `ioutil.WriteFile`,
`ioutil.ReadFile`, `os.Remove`, `ioutil.ReadDir`, `os.Getwd`, `os.Getenv`,
`sort.Strings`, `homedir.Dir`) are not part of the repository; they are
modelled after their documented behaviour on a table of inodes.  A directory
maps names to inode numbers, so several names, in one directory or in several,
can designate one file or one directory (hard links, symbolic links to a
directory, bind mounts).  Names are matched through the file system's
`fold` (the identity on a case-sensitive file system).  Regular files carry
the read and write permission of the process, directories the permission to
add and remove entries, and files are created with `perm` masked by the
`umask`.  Path names are resolved as the kernel does, one element at a time
from the root or from the inode of the working directory.  Concurrent
processes and quotas are outside the model.

Go strings are byte strings; they are modelled by `String`, and the
conversions `[]byte(body)` and `string(data)` are the identity.
-/

/-! ## Errors -/

/-- Go `error` values the methods can return.  Only the error number of an
`*os.PathError` is kept; `homedir` is a failure of the external
home-directory library. -/
inductive Error
  | ENOENT
  | ENOTDIR
  | EISDIR
  | ENOTEMPTY
  | EINVAL
  | EBUSY
  | EACCES
  | ESTALE
  | homedir (msg : String)
  deriving DecidableEq

/-- `os.IsNotExist(err)`: the spec's `NotFound`. -/
def Error.IsNotExist (e : Error) : Bool :=
  match e with
  | .ENOENT => true
  | _ => false

instance instDecidableEqExcept {ε α : Type} [DecidableEq ε] [DecidableEq α] :
    DecidableEq (Except ε α)
  | .ok a, .ok b =>
    if h : a = b then isTrue (by rw [h]) else isFalse (by intro h2; cases h2; exact h rfl)
  | .error a, .error b =>
    if h : a = b then isTrue (by rw [h]) else isFalse (by intro h2; cases h2; exact h rfl)
  | .ok _, .error _ => isFalse (by intro h; cases h)
  | .error _, .ok _ => isFalse (by intro h; cases h)

/-! ## Go `path` and `path/filepath` (POSIX) -/

/-- Split at every `'/'`; the result is never empty (`""` gives `[""]`). -/
def splitSlash : List Char → List (List Char)
  | [] => [[]]
  | c :: cs =>
    if c = '/' then [] :: splitSlash cs
    else
      match splitSlash cs with
      | [] => [[c]]
      | h :: t => (c :: h) :: t

/-- Concatenate with a `'/'` between consecutive elements (`strings.Join`). -/
def joinSlash : List (List Char) → List Char
  | [] => []
  | [a] => a
  | a :: b :: t => a ++ '/' :: joinSlash (b :: t)

/-- One element of `path.Clean`.  `out` is the output so far, last element
first.  Empty elements and `.` are dropped; `..` removes the last real
element, is dropped at the root, and is kept at the start of a relative
path. -/
def cleanStep (rooted : Bool) (out : List (List Char)) (c : List Char) : List (List Char) :=
  if c = [] then out
  else if c = ['.'] then out
  else if c = ['.', '.'] then
    match out with
    | [] => if rooted then [] else [c]
    | top :: rest => if top = ['.', '.'] then c :: out else rest
  else c :: out

/-- Elements of the cleaned path, in order. -/
def cleanElems (rooted : Bool) (cs : List (List Char)) : List (List Char) :=
  (cs.foldl (cleanStep rooted) []).reverse

/-- What `path.Clean` keeps on its output: non-empty elements other than `.`,
free of `/`. -/
def CleanInv (out : List (List Char)) : Prop :=
  ∀ x ∈ out, x ≠ [] ∧ x ≠ ['.'] ∧ '/' ∉ x

/-- `path.Clean` on characters. -/
def cleanChars (p : List Char) : List Char :=
  if p = [] then ['.']
  else
    let rooted := p.head? = some '/'
    let out := cleanElems rooted (splitSlash p)
    if rooted then '/' :: joinSlash out
    else if out = [] then ['.']
    else joinSlash out

/-- Go `path.Clean` (`filepath.Clean` is the same function on POSIX). -/
def Path.Clean (p : String) : String := ⟨cleanChars p.data⟩

/-- Go `path.Join`: leading empty elements are ignored, the rest is joined
with `/` and cleaned; the result is `""` when every element is empty. -/
def Path.Join (elem : List String) : String :=
  match elem.dropWhile (fun e => e = "") with
  | [] => ""
  | es => Path.Clean ⟨joinSlash (es.map String.data)⟩

/-- Characters of `path` up to and including its last `'/'`. -/
def dirPart (p : List Char) : List Char :=
  (p.reverse.dropWhile (fun c => c ≠ '/')).reverse

/-- Go `filepath.Dir` on POSIX: everything up to the last separator, cleaned. -/
def Filepath.Dir (p : String) : String := Path.Clean ⟨dirPart p.data⟩

/-- `fmt.Sprintf(".%s", base)`. -/
def dotBase (base : String) : String := "." ++ base

/-! ## The file system -/

/-- An inode: a regular file with its content and the read and write
permission of the process; a character device that discards what is written
and reads as empty (such as `/dev/null`); or a directory with its parent
(`..`), its named entries in directory order, and the permission of the
process to add and remove entries. -/
inductive Inode
  | file (body : String) (readable writable : Bool)
  | null
  | dir (parent : Nat) (entries : List (String × Nat)) (writable : Bool)
  deriving DecidableEq

/-- The inode table: the first pair with a number is the inode of that
number. -/
abbrev Table := List (Nat × Inode)

/-- The inode numbered `i`. -/
def Table.get : Table → Nat → Option Inode
  | [], _ => none
  | (k, v) :: r, i => if k = i then some v else Table.get r i

/-- Store `n` under the number `i`. -/
def Table.set (t : Table) (i : Nat) (n : Inode) : Table := (i, n) :: t

/-- A number above every number in the table. -/
def Table.fresh : Table → Nat
  | [] => 0
  | (k, _) :: r => max (k + 1) (Table.fresh r)

/-- The inode number the directory entries give for the name `c`, names being
matched through `fold`. -/
def lookupName (fold : String → String) (c : String) : List (String × Nat) → Option Nat
  | [] => none
  | (k, v) :: r => if fold k = fold c then some v else lookupName fold c r

/-- Drop the entries whose name matches `c`. -/
def eraseName (fold : String → String) (c : String) (es : List (String × Nat)) :
    List (String × Nat) :=
  es.filter (fun e => fold e.1 ≠ fold c)

/-- Kernel path walk from the inode `i` along the path elements `cs`.  Every
step needs a directory; empty elements and `.` stay, `..` goes to the parent,
a name goes to the entry of that name. -/
def namei (fold : String → String) (t : Table) : Nat → List (List Char) → Except Error Nat
  | i, [] => .ok i
  | i, c :: cs =>
    match t.get i with
    | none => .error .ESTALE
    | some (.dir parent es _) =>
      if c = [] then namei fold t i cs
      else if c = ['.'] then namei fold t i cs
      else if c = ['.', '.'] then namei fold t parent cs
      else
        match lookupName fold ⟨c⟩ es with
        | none => .error .ENOENT
        | some j => namei fold t j cs
    | some _ => .error .ENOTDIR

/-- The walk of `os.MkdirAll`: as `namei`, but a missing name is created as
an empty directory, writable or not as `wr` says, when the directory it
belongs in is writable.  The walk ends in a directory.  What was created
before a failure stays. -/
def mkdirWalk (fold : String → String) (wr : Bool) :
    Table → Nat → List (List Char) → Table × Except Error Nat
  | t, i, [] =>
    match t.get i with
    | none => (t, .error .ESTALE)
    | some (.dir _ _ _) => (t, .ok i)
    | some _ => (t, .error .ENOTDIR)
  | t, i, c :: cs =>
    match t.get i with
    | none => (t, .error .ESTALE)
    | some (.dir parent es w) =>
      if c = [] then mkdirWalk fold wr t i cs
      else if c = ['.'] then mkdirWalk fold wr t i cs
      else if c = ['.', '.'] then mkdirWalk fold wr t parent cs
      else
        match lookupName fold ⟨c⟩ es with
        | some j => mkdirWalk fold wr t j cs
        | none =>
          if w then
            mkdirWalk fold wr
              ((t.set t.fresh (.dir i [] wr)).set i (.dir parent (es ++ [(⟨c⟩, t.fresh)]) w))
              t.fresh cs
          else (t, .error .EACCES)
    | some _ => (t, .error .ENOTDIR)

/-! ## The world of a call -/

/-- Everything a method call depends on besides its arguments. -/
structure World where
  /-- The inodes of the file system. -/
  inodes : Table
  /-- Inode number of the root directory `/`. -/
  root : Nat
  /-- Inode number of the working directory of the process. -/
  cwd : Nat
  /-- What `os.Getwd` returns: an absolute path of the working directory, or an
  error when it cannot be determined (the directory was removed). -/
  getwd : Except Error String
  /-- The environment variables that are set. -/
  env : List (String × String)
  /-- What `homedir.Dir` falls back to when `HOME` is empty: the home directory
  of the user database, or an error. -/
  homedir : Except Error String
  /-- The file mode creation mask of the process. -/
  umask : Nat
  /-- How the file system matches names: the identity, or a case folding. -/
  fold : String → String

/-- Whether the owner permission bit `bit` (8 read, 7 write) survives the
mask. -/
def modeBit (perm umask bit : Nat) : Bool :=
  perm.testBit bit && !umask.testBit bit

/-- The inode where the walk of `name` starts. -/
def startOf (w : World) (name : String) : Nat :=
  if name.data.head? = some '/' then w.root else w.cwd

/-- The inode `name` designates.  The empty path is `ENOENT`. -/
def resolve (w : World) (name : String) : Except Error Nat :=
  if name.data = [] then .error .ENOENT
  else namei w.fold w.inodes (startOf w name) (splitSlash name.data)

/-- The directory holding the last element of `name`, and that element. -/
def resolveParent (w : World) (name : String) : Except Error (Nat × List Char) :=
  if name.data = [] then .error .ENOENT
  else
    match namei w.fold w.inodes (startOf w name) (splitSlash name.data).dropLast with
    | .error e => .error e
    | .ok p => .ok (p, (splitSlash name.data).getLast?.getD [])

/-- Go `os.Getenv`: the value, or `""` when the variable is unset. -/
def Os.Getenv (w : World) (key : String) : String :=
  (w.env.lookup key).getD ""

/-- Go `os.Getwd`. -/
def Os.Getwd (w : World) : Except Error String := w.getwd

/-- `homedir.Dir` of `github.com/mitchellh/go-homedir`: `HOME` when it is not
empty, else the outcome of the lookup in the user database. -/
def Homedir.Dir (w : World) : Except Error String :=
  if Os.Getenv w "HOME" ≠ "" then .ok (Os.Getenv w "HOME") else w.homedir

/-- Go `os.MkdirAll(path, perm)`: the world after the call and the error. -/
def Os.MkdirAll (w : World) (path : String) (perm : Nat) : World × Option Error :=
  if path.data = [] then (w, some .ENOENT)
  else
    match mkdirWalk w.fold (modeBit perm w.umask 7) w.inodes (startOf w path)
        (splitSlash path.data) with
    | (t, .error e) => ({ w with inodes := t }, some e)
    | (t, .ok _) => ({ w with inodes := t }, none)

/-- Go `ioutil.WriteFile(filename, data, perm)`:
`open(O_WRONLY|O_CREATE|O_TRUNC)` and a full write.  An existing file keeps
its permissions and must be writable; a new file needs a writable directory
and gets `perm` masked by the `umask`. -/
def Ioutil.WriteFile (w : World) (filename : String) (data : String) (perm : Nat) :
    Except Error World :=
  match resolveParent w filename with
  | .error e => .error e
  | .ok (p, c) =>
    if c = [] ∨ c = ['.'] ∨ c = ['.', '.'] then .error .EISDIR
    else
      match w.inodes.get p with
      | none => .error .ESTALE
      | some (.dir parent es pw) =>
        match lookupName w.fold ⟨c⟩ es with
        | some i =>
          match w.inodes.get i with
          | none => .error .ESTALE
          | some (.file _ r wr) =>
            if wr then .ok { w with inodes := w.inodes.set i (.file data r wr) }
            else .error .EACCES
          | some .null => .ok w
          | some (.dir _ _ _) => .error .EISDIR
        | none =>
          if pw then
            let created := w.inodes.set w.inodes.fresh
              (.file data (modeBit perm w.umask 8) (modeBit perm w.umask 7))
            .ok { w with
              inodes := created.set p (.dir parent (es ++ [(⟨c⟩, w.inodes.fresh)]) pw) }
          else .error .EACCES
      | some _ => .error .ENOTDIR

/-- Go `ioutil.ReadFile(filename)`. -/
def Ioutil.ReadFile (w : World) (filename : String) : Except Error String :=
  match resolve w filename with
  | .error e => .error e
  | .ok i =>
    match w.inodes.get i with
    | none => .error .ESTALE
    | some (.file body r _) => if r then .ok body else .error .EACCES
    | some .null => .ok ""
    | some (.dir _ _ _) => .error .EISDIR

/-- Go `os.Remove(name)` (`unlink`, then `rmdir`): removes the entry of a file
or of an empty directory from a writable directory.  A last element `.` is
`EINVAL`, `..` is `ENOTEMPTY`.  Removing the working directory leaves
`os.Getwd` failing. -/
def Os.Remove (w : World) (name : String) : Except Error World :=
  match resolveParent w name with
  | .error e => .error e
  | .ok (p, c) =>
    if c = ['.'] then .error .EINVAL
    else if c = ['.', '.'] then .error .ENOTEMPTY
    else if c = [] then .error .EBUSY
    else
      match w.inodes.get p with
      | none => .error .ESTALE
      | some (.dir parent es pw) =>
        match lookupName w.fold ⟨c⟩ es with
        | none => .error .ENOENT
        | some i =>
          match w.inodes.get i with
          | none => .error .ESTALE
          | some (.dir _ (_ :: _) _) => .error .ENOTEMPTY
          | some (.dir _ [] _) =>
            if pw then
              .ok { w with
                inodes := w.inodes.set p (.dir parent (eraseName w.fold ⟨c⟩ es) pw)
                getwd := if i = w.cwd then .error .ENOENT else w.getwd }
            else .error .EACCES
          | some _ =>
            if pw then
              .ok { w with inodes := w.inodes.set p (.dir parent (eraseName w.fold ⟨c⟩ es) pw) }
            else .error .EACCES
      | some _ => .error .ENOTDIR

/-- Go `os.FileInfo`, as far as `List` uses it. -/
structure FileInfo where
  Name : String
  IsDir : Bool
  deriving DecidableEq

/-- Go string order `<=`: bytewise lexicographic.  On `String` this is the
lexicographic order of the characters, which UTF-8 encoding preserves. -/
def strLE (a b : String) : Prop := a.data ≤ b.data

instance instDecidableRelStrLE : DecidableRel strLE :=
  fun a b => inferInstanceAs (Decidable (a.data ≤ b.data))

instance instIsTotalStrLE : IsTotal String strLE :=
  ⟨fun a b => le_total a.data b.data⟩

instance instIsTransStrLE : IsTrans String strLE :=
  ⟨fun _ _ _ hab hbc => le_trans (α := List Char) hab hbc⟩

/-- The `FileInfo` of a directory entry. -/
def entryInfo (t : Table) (e : String × Nat) : FileInfo :=
  match t.get e.2 with
  | some (.dir _ _ _) => { Name := e.1, IsDir := true }
  | _ => { Name := e.1, IsDir := false }

/-- Go `ioutil.ReadDir(dirname)`: the entries of the directory, sorted by
file name. -/
def Ioutil.ReadDir (w : World) (dirname : String) : Except Error (List FileInfo) :=
  match resolve w dirname with
  | .error e => .error e
  | .ok i =>
    match w.inodes.get i with
    | none => .error .ESTALE
    | some (.dir _ es _) =>
      .ok ((es.map (entryInfo w.inodes)).insertionSort (fun a b => strLE a.Name b.Name))
    | some _ => .error .ENOTDIR

/-- Go `sort.Strings`: sort in increasing order. -/
def Sort.Strings (keys : List String) : List String :=
  keys.insertionSort strLE

/-- The table `t2` extends `t`: every inode of `t` is still there with its
kind, permissions and parent, a directory has kept the entries it had, and a
regular file may have another content. -/
def Extends (fold : String → String) (t t2 : Table) : Prop :=
  ∀ k, match t.get k with
    | none => True
    | some (.dir parent es w) =>
      ∃ es2, t2.get k = some (.dir parent es2 w) ∧
        ∀ x y, lookupName fold x es = some y → lookupName fold x es2 = some y
    | some (.file _ r w) => ∃ b2, t2.get k = some (.file b2 r w)
    | some .null => t2.get k = some .null

/-- The worlds `w` and `w2` differ in their inodes only. -/
def SameEnv (w w2 : World) : Prop :=
  w2.root = w.root ∧ w2.cwd = w.cwd ∧ w2.getwd = w.getwd ∧ w2.env = w.env ∧
    w2.homedir = w.homedir ∧ w2.umask = w.umask ∧ w2.fold = w.fold

/-! ## `config.go` and `posix.go` -/

/-- `ConfigEntry` of `config.go`. -/
structure ConfigEntry where
  Key : String
  Value : String
  deriving DecidableEq

/-- `Config` of `config.go`.  `Entries` is a Go map, never read or written
after construction. -/
structure Config where
  Base : String
  Entries : List (String × ConfigEntry)
  deriving DecidableEq

/-- `NewConfig` of `config.go`. -/
def NewConfig (base : String) : Config :=
  { Base := base, Entries := [] }

/-- `homeDirectory` of `config.go` (lines 173 to 175): `homedir.Dir()`.  This
is the definition `configDirectory` calls, with a string and an error. -/
def Config.homeDirectory (_c : Config) (w : World) : Except Error String :=
  Homedir.Dir w

/-- `homeDirectory` of `posix.go`: `os.Getenv("HOME")`, with no error result.
It has the name and receiver of the definition in `config.go` but one result,
so no call in `config.go` uses it. -/
def Config.homeDirectoryPosix (_c : Config) (w : World) : String :=
  Os.Getenv w "HOME"

/-- `configDirectory` of `config.go`. -/
def Config.configDirectory (c : Config) (w : World) : Except Error String :=
  match c.homeDirectory w with
  | .error e => .error e
  | .ok home => .ok (Path.Join [home, dotBase c.Base])

/-- `localConfigDirectory` of `config.go`. -/
def Config.localConfigDirectory (c : Config) (w : World) : Except Error String :=
  match Os.Getwd w with
  | .error e => .error e
  | .ok cwd => .ok (Path.Join [cwd, dotBase c.Base])

/-- `writeFile` of `config.go`: the world after the call and the error. -/
def Config.writeFile (_c : Config) (w : World) (filename body : String) :
    World × Option Error :=
  let dir := Filepath.Dir filename
  match Os.MkdirAll w dir 0o700 with
  | (w1, some e) => (w1, some e)
  | (w1, none) =>
    match Ioutil.WriteFile w1 filename body 0o600 with
    | .error e => (w1, some e)
    | .ok w2 => (w2, none)

/-- `readFile` of `config.go`.  On an error the Go result `body` is `""`. -/
def Config.readFile (_c : Config) (w : World) (filename : String) : Except Error String :=
  match Ioutil.ReadFile w filename with
  | .error e => .error e
  | .ok data => .ok data

/-- `List` of `config.go`. -/
def Config.List (c : Config) (w : World) (name : String) : Except Error (List String) :=
  match c.configDirectory w with
  | .error e => .error e
  | .ok configDir =>
    let dir := Path.Join [configDir, name]
    match Ioutil.ReadDir w dir with
    | .error e => .error e
    | .ok files => .ok (Sort.Strings (files.map (fun file => file.Name)))

/-- `SaveGlobal` of `config.go`. -/
def Config.SaveGlobal (c : Config) (w : World) (name key value : String) :
    World × Option Error :=
  match c.configDirectory w with
  | .error e => (w, some e)
  | .ok dir =>
    let filename := Path.Join [dir, name, key]
    c.writeFile w filename value

/-- `Save` of `config.go`. -/
def Config.Save (c : Config) (w : World) (name key value : String) : World × Option Error :=
  c.SaveGlobal w name key value

/-- `LoadGlobal` of `config.go`. -/
def Config.LoadGlobal (c : Config) (w : World) (name key : String) : Except Error String :=
  match c.configDirectory w with
  | .error e => .error e
  | .ok dir =>
    let filename := Path.Join [dir, name, key]
    c.readFile w filename

/-- `Load` of `config.go`. -/
def Config.Load (c : Config) (w : World) (name key : String) : Except Error String :=
  c.LoadGlobal w name key

/-- `LoadLocalOrGlobal` of `config.go`. -/
def Config.LoadLocalOrGlobal (c : Config) (w : World) (name key : String) :
    Except Error String :=
  match c.localConfigDirectory w with
  | .error e => .error e
  | .ok dir =>
    let filename := Path.Join [dir, name, key]
    match c.readFile w filename with
    | .error _ => c.LoadGlobal w name key
    | .ok body => .ok body

/-- `DeleteGlobal` of `config.go`. -/
def Config.DeleteGlobal (c : Config) (w : World) (name key : String) : World × Option Error :=
  match c.configDirectory w with
  | .error e => (w, some e)
  | .ok dir =>
    let filename := Path.Join [dir, name, key]
    match Os.Remove w filename with
    | .error e => (w, some e)
    | .ok w1 => (w1, none)

/-- `Delete` of `config.go`. -/
def Config.Delete (c : Config) (w : World) (name key : String) : World × Option Error :=
  c.DeleteGlobal w name key

/-- The inode `filename` designates, if any. -/
def entryAt (w : World) (filename : String) : Option Inode :=
  match resolve w filename with
  | .error _ => none
  | .ok i => w.inodes.get i

/-- The regular file `filename` designates, if any: its content, and whether
the process may read it. -/
def fileAt (w : World) (filename : String) : Option (String × Bool) :=
  match entryAt w filename with
  | some (.file body r _) => some (body, r)
  | _ => none

/-- The path of the global-scope file of `(name, key)`,
`<home>/.<base>/<name>/<key>`. -/
def globalPath (c : Config) (w : World) (name key : String) : Option String :=
  match c.configDirectory w with
  | .error _ => none
  | .ok dir => some (Path.Join [dir, name, key])

/-- The path of the local-scope file of `(name, key)`,
`<cwd>/.<base>/<name>/<key>`. -/
def localPath (c : Config) (w : World) (name key : String) : Option String :=
  match c.localConfigDirectory w with
  | .error _ => none
  | .ok dir => some (Path.Join [dir, name, key])

/-- The global-scope file of `(name, key)`: content and readability. -/
def globalFile (c : Config) (w : World) (name key : String) : Option (String × Bool) :=
  (globalPath c w name key).bind (fileAt w)

/-- The local-scope file of `(name, key)`: content and readability. -/
def localFile (c : Config) (w : World) (name key : String) : Option (String × Bool) :=
  (localPath c w name key).bind (fileAt w)

/-- The inode at the local-scope path of `(name, key)`, if any. -/
def localEntry (c : Config) (w : World) (name key : String) : Option Inode :=
  (localPath c w name key).bind (entryAt w)

/-- The local-scope read attempt that opens `LoadLocalOrGlobal`
(`config.go`, lines 93 to 98). -/
def localRead (c : Config) (w : World) (name key : String) : Except Error String :=
  match c.localConfigDirectory w with
  | .error e => .error e
  | .ok dir => c.readFile w (Path.Join [dir, name, key])

/-- A namespace or key that is a single path element: non-empty, not `.` or
`..`, without `/`. -/
def simpleName (s : String) : Bool :=
  decide (s.data ≠ [] ∧ s.data ≠ ['.'] ∧ s.data ≠ ['.', '.'] ∧ '/' ∉ s.data)

/-! ## Sample worlds -/

/-- The store of the spec's concrete scenario. -/
def tool : Config := NewConfig "tool"

/-- Inodes 0 to 3: `/`, `/home`, `/home/u` and `/work`, all writable, with the
entries `u` of `/home/u` and `k` of `/work`. -/
def baseTable (u k : List (String × Nat)) : Table :=
  [(0, .dir 0 [("home", 1), ("work", 3)] true), (1, .dir 0 [("u", 2)] true),
   (2, .dir 1 u true), (3, .dir 0 k true)]

/-- A case-sensitive world with `HOME=/home/u`, an empty home directory, and
the process running in the empty directory `/work`. -/
def sampleWorld : World :=
  { inodes := baseTable [] []
    root := 0
    cwd := 3
    getwd := .ok "/work"
    env := [("HOME", "/home/u")]
    homedir := .ok "/home/u"
    umask := 0o022
    fold := id }

/-- The world after a sequence of `SaveGlobal(name, key, value)` calls. -/
def saveAll (c : Config) (w : World) : List (String × String × String) → World
  | [] => w
  | (name, key, value) :: rest => saveAll c (c.SaveGlobal w name key value).1 rest

/-- As `sampleWorld`, with the global directory of namespace `ns` (inode 5)
holding the file `b`, the subdirectory `a` and the file `c`, in that
directory order. -/
def listWorld : World :=
  { sampleWorld with
    inodes := baseTable [(".tool", 4)] [] ++
      [(4, .dir 2 [("ns", 5)] true), (5, .dir 4 [("b", 6), ("a", 7), ("c", 8)] true),
       (6, .file "1" true true), (7, .dir 5 [] true), (8, .file "3" true true)] }

/-- The directory `.tool` as inode `n`, child of `parent`, with
`profiles/default` being the inode `f` numbered `n + 2`; `dw` says whether the
process may change the directory `profiles`. -/
def storeAt (n parent : Nat) (dw : Bool) (f : Inode) : Table :=
  [(n, .dir parent [("profiles", n + 1)] true), (n + 1, .dir n [("default", n + 2)] dw),
   (n + 2, f)]

/-- As `sampleWorld`, with `v1` in the local file and `v2` in the global file
of `("profiles", "default")`, both readable. -/
def bothWorld : World :=
  { sampleWorld with
    inodes := baseTable [(".tool", 4)] [(".tool", 7)] ++
      storeAt 4 2 true (.file "v2" true true) ++ storeAt 7 3 true (.file "v1" true true) }

/-- As `bothWorld`, but the process may not read the local file. -/
def unreadableLocalWorld : World :=
  { sampleWorld with
    inodes := baseTable [(".tool", 4)] [(".tool", 7)] ++
      storeAt 4 2 true (.file "v2" true true) ++ storeAt 7 3 true (.file "v1" false true) }

/-- As `sampleWorld`, with `v2` in the global file of `("profiles", "default")`
and nothing in the local scope. -/
def globalOnlyWorld : World :=
  { sampleWorld with inodes := baseTable [(".tool", 4)] [] ++ storeAt 4 2 true (.file "v2" true true) }

/-- As `globalOnlyWorld`, but the process may not read the global file. -/
def unreadableGlobalWorld : World :=
  { sampleWorld with
    inodes := baseTable [(".tool", 4)] [] ++ storeAt 4 2 true (.file "v2" false true) }

/-- As `globalOnlyWorld`, but the global file may be written and not read. -/
def writeOnlyWorld : World :=
  { sampleWorld with
    inodes := baseTable [(".tool", 4)] [] ++ storeAt 4 2 true (.file "old" false true) }

/-- As `sampleWorld`, with `v1` in the local file of `("profiles", "default")`
and nothing in the global scope. -/
def localOnlyWorld : World :=
  { sampleWorld with inodes := baseTable [] [(".tool", 7)] ++ storeAt 7 3 true (.file "v1" true true) }

/-- As `globalOnlyWorld`, for a process whose working directory has been
removed: `os.Getwd` fails. -/
def noCwdWorld : World :=
  { globalOnlyWorld with getwd := .error .ENOENT }

/-- As `sampleWorld`, with `HOME` unset; the user database gives the home
`/home/u`. -/
def noHomeWorld : World :=
  { sampleWorld with env := [] }

/-- As `noHomeWorld`, with a user database that gives no home. -/
def noHomeDbWorld : World :=
  { sampleWorld with env := [], homedir := .error (.homedir "no home directory") }

theorem Table.get_set_same (t : Table) (i : Nat) (n : Inode) : (t.set i n).get i = some n := by
  simp [Table.set, Table.get]

theorem Table.get_set_ne (t : Table) (i j : Nat) (n : Inode) (h : i ≠ j) :
    (t.set i n).get j = t.get j := by
  simp [Table.set, Table.get, h]

theorem Table.lt_fresh (t : Table) : ∀ i n, t.get i = some n → i < t.fresh := by
  induction t with
  | nil => intro i n h; simp [Table.get] at h
  | cons e r ih =>
    intro i n h
    obtain ⟨k, v⟩ := e
    simp only [Table.get] at h
    simp only [Table.fresh]
    by_cases hk : k = i
    · subst hk; omega
    · simp only [hk, if_false] at h
      have := ih i n h
      omega

theorem Table.get_fresh (t : Table) : t.get t.fresh = none := by
  cases h : t.get t.fresh with
  | none => rfl
  | some n => exact absurd (Table.lt_fresh t _ n h) (Nat.lt_irrefl _)

theorem lookupName_append_of_some (fold : String → String) (c : String)
    (es es2 : List (String × Nat)) (j : Nat) (h : lookupName fold c es = some j) :
    lookupName fold c (es ++ es2) = some j := by
  induction es with
  | nil => simp [lookupName] at h
  | cons e r ih =>
    obtain ⟨k, v⟩ := e
    simp only [List.cons_append, lookupName] at h ⊢
    split
    · rename_i hk; simpa [hk] using h
    · rename_i hk; exact ih (by simpa [hk] using h)

theorem lookupName_append_of_none (fold : String → String) (c : String)
    (es es2 : List (String × Nat)) (h : lookupName fold c es = none) :
    lookupName fold c (es ++ es2) = lookupName fold c es2 := by
  induction es with
  | nil => rfl
  | cons e r ih =>
    obtain ⟨k, v⟩ := e
    simp only [List.cons_append, lookupName] at h ⊢
    split
    · rename_i hk; simp [hk] at h
    · rename_i hk; exact ih (by simpa [hk] using h)

theorem eraseName_cons (fold : String → String) (c k : String) (v : Nat)
    (r : List (String × Nat)) :
    eraseName fold c ((k, v) :: r) =
      if fold k = fold c then eraseName fold c r else (k, v) :: eraseName fold c r := by
  by_cases hk : fold k = fold c <;> simp [eraseName, List.filter_cons, hk]

theorem lookupName_cons (fold : String → String) (d k : String) (v : Nat)
    (r : List (String × Nat)) :
    lookupName fold d ((k, v) :: r) = if fold k = fold d then some v else lookupName fold d r :=
  rfl

theorem lookupName_eraseName_same (fold : String → String) (c d : String)
    (es : List (String × Nat)) (h : fold d = fold c) :
    lookupName fold d (eraseName fold c es) = none := by
  induction es with
  | nil => rfl
  | cons e r ih =>
    obtain ⟨k, v⟩ := e
    rw [eraseName_cons]
    by_cases hk : fold k = fold c
    · rw [if_pos hk]; exact ih
    · rw [if_neg hk, lookupName_cons, if_neg (fun h2 => hk (h2.trans h))]; exact ih

theorem lookupName_eraseName_ne (fold : String → String) (c d : String)
    (es : List (String × Nat)) (h : fold d ≠ fold c) :
    lookupName fold d (eraseName fold c es) = lookupName fold d es := by
  induction es with
  | nil => rfl
  | cons e r ih =>
    obtain ⟨k, v⟩ := e
    rw [eraseName_cons, lookupName_cons]
    by_cases hk : fold k = fold c
    · rw [if_pos hk, if_neg (fun h2 => h (h2.symm.trans hk))]; exact ih
    · rw [if_neg hk, lookupName_cons]
      by_cases hkd : fold k = fold d
      · rw [if_pos hkd, if_pos hkd]
      · rw [if_neg hkd, if_neg hkd]; exact ih

/-! ## Path walks -/

theorem namei_append (fold : String → String) (t : Table) (a b : List (List Char)) :
    ∀ i, namei fold t i (a ++ b) =
      match namei fold t i a with
      | .error e => .error e
      | .ok j => namei fold t j b := by
  induction a with
  | nil => intro i; rfl
  | cons c cs ih =>
    intro i
    simp only [List.cons_append, namei]
    cases t.get i with
    | none => rfl
    | some n =>
      cases n with
      | file b r w => rfl
      | null => rfl
      | dir parent es w =>
        simp only []
        split
        · exact ih i
        · split
          · exact ih i
          · split
            · exact ih parent
            · cases lookupName fold ⟨c⟩ es with
              | none => rfl
              | some j => exact ih j

theorem splitSlash_ne_nil (p : List Char) : splitSlash p ≠ [] := by
  cases p with
  | nil => simp [splitSlash]
  | cons c cs =>
    simp only [splitSlash]
    split
    · simp
    · split <;> simp

theorem dropLast_append_getLast (l : List (List Char)) (h : l ≠ []) :
    l.dropLast ++ [l.getLast?.getD []] = l := by
  rw [List.getLast?_eq_getLast l h]
  simpa using List.dropLast_append_getLast h

/-- Resolving a name is resolving its parent and then walking the last
element. -/
theorem resolve_eq_parent (w : World) (name : String) (p : Nat) (c : List Char)
    (h : resolveParent w name = .ok (p, c)) :
    resolve w name = namei w.fold w.inodes p [c] := by
  simp only [resolveParent] at h
  split at h
  · simp at h
  · rename_i hne
    split at h
    · simp at h
    · rename_i q hq
      simp only [Except.ok.injEq, Prod.mk.injEq] at h
      obtain ⟨rfl, rfl⟩ := h
      simp only [resolve, hne, if_false]
      conv_lhs => rw [← dropLast_append_getLast _ (splitSlash_ne_nil name.data)]
      rw [namei_append, hq]

/-! ## What the calls leave alone -/

theorem configDirectory_congr (c : Config) (w w2 : World) (he : w2.env = w.env)
    (hp : w2.homedir = w.homedir) : c.configDirectory w2 = c.configDirectory w := by
  simp [Config.configDirectory, Config.homeDirectory, Homedir.Dir, Os.Getenv, he, hp]

/-- The world a successful `os.Remove` produces. -/
theorem Os.Remove_ok (w w2 : World) (name : String) (h : Os.Remove w name = .ok w2) :
    ∃ p c parent es i, resolveParent w name = .ok (p, c) ∧
      c ≠ [] ∧ c ≠ ['.'] ∧ c ≠ ['.', '.'] ∧
      w.inodes.get p = some (.dir parent es true) ∧ lookupName w.fold ⟨c⟩ es = some i ∧
      w2.inodes = w.inodes.set p (.dir parent (eraseName w.fold ⟨c⟩ es) true) ∧
      w2.root = w.root ∧ w2.cwd = w.cwd ∧ w2.env = w.env ∧ w2.homedir = w.homedir ∧
      w2.fold = w.fold ∧ w2.umask = w.umask := by
  simp only [Os.Remove] at h
  split at h
  · simp at h
  · rename_i p c hpc
    split at h
    · simp at h
    · rename_i h1
      split at h
      · simp at h
      · rename_i h2
        split at h
        · simp at h
        · rename_i h3
          split at h
          · simp at h
          · rename_i parent es pw hp
            split at h
            · simp at h
            · rename_i i hi
              split at h
              · simp at h
              · simp at h
              · split at h
                · rename_i hpw
                  simp only [Except.ok.injEq] at h
                  subst hpw
                  exact ⟨p, c, parent, es, i, hpc, h3, h1, h2, hp, hi, by rw [← h], by rw [← h],
                    by rw [← h], by rw [← h], by rw [← h], by rw [← h], by rw [← h]⟩
                · simp at h
              · split at h
                · rename_i hpw
                  simp only [Except.ok.injEq] at h
                  subst hpw
                  exact ⟨p, c, parent, es, i, hpc, h3, h1, h2, hp, hi, by rw [← h], by rw [← h],
                    by rw [← h], by rw [← h], by rw [← h], by rw [← h], by rw [← h]⟩
                · simp at h
          · simp at h

/-- Erasing the name `c` from the directory `p` turns a successful walk into
the same walk or into `ENOENT`. -/
theorem namei_after_erase (fold : String → String) (t : Table) (p parent : Nat)
    (es : List (String × Nat)) (pw : Bool) (c : String)
    (hp : t.get p = some (.dir parent es pw)) (cs : List (List Char)) :
    ∀ i j, namei fold t i cs = .ok j →
      namei fold (t.set p (.dir parent (eraseName fold c es) pw)) i cs = .ok j ∨
      namei fold (t.set p (.dir parent (eraseName fold c es) pw)) i cs = .error .ENOENT := by
  induction cs with
  | nil => intro i j h; left; exact h
  | cons d ds ih =>
    intro i j h
    by_cases hi : p = i
    · subst hi
      simp only [namei, hp, Table.get_set_same] at h ⊢
      split
      · rename_i h1; simp only [h1, if_true] at h; exact ih _ _ h
      · rename_i h1
        simp only [h1, if_false] at h
        split
        · rename_i h2; simp only [h2, if_true] at h; exact ih _ _ h
        · rename_i h2
          simp only [h2, if_false] at h
          split
          · rename_i h3; simp only [h3, if_true] at h; exact ih _ _ h
          · rename_i h3
            simp only [h3, if_false] at h
            by_cases hf : fold ⟨d⟩ = fold c
            · right
              rw [lookupName_eraseName_same fold c ⟨d⟩ es hf]
            · rw [lookupName_eraseName_ne fold c ⟨d⟩ es hf]
              cases hl : lookupName fold ⟨d⟩ es with
              | none => simp [hl] at h
              | some k =>
                simp only [hl] at h ⊢
                exact ih _ _ h
    · simp only [namei, Table.get_set_ne _ _ _ _ hi] at h ⊢
      cases hg : t.get i with
      | none => simp [hg] at h
      | some n =>
        cases n with
        | file b r w => simp [hg] at h
        | null => simp [hg] at h
        | dir parent2 es2 w2 =>
          simp only [hg] at h ⊢
          split
          · rename_i h1; simp only [h1, if_true] at h; exact ih _ _ h
          · rename_i h1
            simp only [h1, if_false] at h
            split
            · rename_i h2; simp only [h2, if_true] at h; exact ih _ _ h
            · rename_i h2
              simp only [h2, if_false] at h
              split
              · rename_i h3; simp only [h3, if_true] at h; exact ih _ _ h
              · rename_i h3
                simp only [h3, if_false] at h
                cases hl : lookupName fold ⟨d⟩ es2 with
                | none => simp [hl] at h
                | some k =>
                  simp only [hl] at h ⊢
                  exact ih _ _ h

/-- After a successful `os.Remove(name)`, `name` designates nothing. -/
theorem resolve_after_Remove (w w2 : World) (name : String) (h : Os.Remove w name = .ok w2) :
    resolve w2 name = .error .ENOENT := by
  obtain ⟨p, c, parent, es, i, hpc, h1, h2, h3, hp, hi, ht, hr, hc, _, _, hf, _⟩ :=
    Os.Remove_ok w w2 name h
  simp only [resolveParent] at hpc
  split at hpc
  · simp at hpc
  · rename_i hne
    split at hpc
    · simp at hpc
    · rename_i q hq
      simp only [Except.ok.injEq, Prod.mk.injEq] at hpc
      obtain ⟨rfl, rfl⟩ := hpc
      have hstart : startOf w2 name = startOf w name := by simp [startOf, hr, hc]
      simp only [resolve, hne, if_false, hstart, hf, ht]
      have hsplit := dropLast_append_getLast _ (splitSlash_ne_nil name.data)
      generalize (splitSlash name.data).getLast?.getD [] = last at *
      generalize (splitSlash name.data).dropLast = ini at *
      rw [← hsplit, namei_append]
      rcases namei_after_erase w.fold w.inodes q parent es true ⟨last⟩ hp _ _ _ hq with h4 | h4
      · rw [h4]
        simp only [namei, Table.get_set_same, h1, h2, h3, if_false]
        rw [lookupName_eraseName_same w.fold _ _ es rfl]
      · rw [h4]

theorem ReadFile_after_Remove (w w2 : World) (name : String) (h : Os.Remove w name = .ok w2) :
    Ioutil.ReadFile w2 name = .error .ENOENT := by
  simp [Ioutil.ReadFile, resolve_after_Remove w w2 name h]

/-! ## Sorting -/

theorem strLE_iff (a b : String) : strLE a b ↔ a ≤ b :=
  String.le_iff_toList_le.symm

/-- `sort.Strings` returns its argument rearranged in increasing order. -/
theorem Sort.Strings_sorted (keys : List String) :
    (Sort.Strings keys).Sorted (fun a b => a ≤ b) ∧ (Sort.Strings keys).Perm keys := by
  refine ⟨?_, List.perm_insertionSort strLE keys⟩
  have h := List.sorted_insertionSort strLE keys
  exact List.Pairwise.imp (fun {a b} hab => (strLE_iff a b).mp hab) h

theorem map_Name_entryInfo (t : Table) (es : List (String × Nat)) :
    (es.map (entryInfo t)).map (fun file => file.Name) = es.map Prod.fst := by
  induction es with
  | nil => rfl
  | cons e r ih =>
    obtain ⟨k, v⟩ := e
    simp only [List.map_cons, ih, List.cons.injEq, and_true]
    simp only [entryInfo]
    split <;> rfl

/-! ## Extending the table -/

theorem Extends_refl (fold : String → String) (t : Table) : Extends fold t t := by
  intro k
  cases h : t.get k with
  | none => trivial
  | some n =>
    cases n with
    | file b r w => exact ⟨b, rfl⟩
    | null => rfl
    | dir parent es w => exact ⟨es, rfl, fun _ _ h => h⟩

theorem Extends_trans (fold : String → String) (t t2 t3 : Table) (h12 : Extends fold t t2)
    (h23 : Extends fold t2 t3) : Extends fold t t3 := by
  intro k
  have h1 := h12 k
  have h2 := h23 k
  cases h : t.get k with
  | none => trivial
  | some n =>
    cases n with
    | file b r w =>
      simp only [h] at h1
      obtain ⟨b2, hb2⟩ := h1
      simp only [hb2] at h2
      exact h2
    | null =>
      simp only [h] at h1
      simp only [h1] at h2
      exact h2
    | dir parent es w =>
      simp only [h] at h1
      obtain ⟨es2, he2, hl2⟩ := h1
      simp only [he2] at h2
      obtain ⟨es3, he3, hl3⟩ := h2
      exact ⟨es3, he3, fun x y hx => hl3 x y (hl2 x y hx)⟩

/-- A successful walk is the same walk in an extended table. -/
theorem namei_ext (fold : String → String) (t t2 : Table) (h : Extends fold t t2)
    (cs : List (List Char)) :
    ∀ i j, namei fold t i cs = .ok j → namei fold t2 i cs = .ok j := by
  induction cs with
  | nil => intro i j hj; exact hj
  | cons c cs ih =>
    intro i j hj
    have hk := h i
    simp only [namei] at hj ⊢
    cases hg : t.get i with
    | none => simp [hg] at hj
    | some n =>
      cases n with
      | file b r w => simp [hg] at hj
      | null => simp [hg] at hj
      | dir parent es w =>
        simp only [hg] at hj hk
        obtain ⟨es2, he2, hl2⟩ := hk
        simp only [he2]
        split
        · rename_i h1; simp only [h1, if_true] at hj; exact ih _ _ hj
        · rename_i h1
          simp only [h1, if_false] at hj
          split
          · rename_i h2; simp only [h2, if_true] at hj; exact ih _ _ hj
          · rename_i h2
            simp only [h2, if_false] at hj
            split
            · rename_i h3; simp only [h3, if_true] at hj; exact ih _ _ hj
            · rename_i h3
              simp only [h3, if_false] at hj
              cases hl : lookupName fold ⟨c⟩ es with
              | none => simp [hl] at hj
              | some k =>
                simp only [hl] at hj
                rw [hl2 _ _ hl]
                exact ih _ _ hj

/-- Rewriting the content of a regular file extends the table. -/
theorem Extends.set_file (fold : String → String) (t : Table) (i : Nat) (b b2 : String)
    (r w : Bool) (hi : t.get i = some (.file b r w)) :
    Extends fold t (t.set i (.file b2 r w)) := by
  intro k
  by_cases hk : i = k
  · subst hk
    simp only [hi, Table.get_set_same]
    exact ⟨b2, rfl⟩
  · rw [Table.get_set_ne _ _ _ _ hk]
    exact Extends_refl fold t k

/-- Adding a fresh inode under a name the directory `p` does not have extends
the table. -/
theorem Extends.add_entry (fold : String → String) (t : Table) (p parent : Nat)
    (es : List (String × Nat)) (pw : Bool) (c : String) (n : Inode)
    (hp : t.get p = some (.dir parent es pw)) :
    Extends fold t ((t.set t.fresh n).set p (.dir parent (es ++ [(c, t.fresh)]) pw)) := by
  intro k
  by_cases hk : p = k
  · subst hk
    simp only [hp, Table.get_set_same]
    exact ⟨_, rfl, fun x y hx => lookupName_append_of_some fold x es _ y hx⟩
  · rw [Table.get_set_ne _ _ _ _ hk]
    by_cases hf : t.fresh = k
    · subst hf
      simp [Table.get_fresh]
    · rw [Table.get_set_ne _ _ _ _ hf]
      exact Extends_refl fold t k

/-! ## `ioutil.WriteFile` -/

theorem resolve_congr (w w2 : World) (name : String) (h : SameEnv w w2)
    (ht : w2.inodes = w.inodes) : resolve w2 name = resolve w name := by
  obtain ⟨hr, hc, _, _, _, _, hf⟩ := h
  simp [resolve, startOf, hr, hc, hf, ht]

/-- What a successful `ioutil.WriteFile` does: the parent directory is left
with all its entries, and the name then designates a regular file with the
data, or the device it designated before. -/
theorem Ioutil.WriteFile_ok (w w2 : World) (filename data : String) (perm : Nat)
    (h : Ioutil.WriteFile w filename data perm = .ok w2) :
    SameEnv w w2 ∧ Extends w.fold w.inodes w2.inodes ∧
    ∃ i, resolve w2 filename = .ok i ∧
      ((∃ r wr, w2.inodes.get i = some (.file data r wr)) ∨ w2.inodes.get i = some .null) ∧
      (∀ k, k ≠ i → ∀ b r wr, w.inodes.get k = some (.file b r wr) →
        w2.inodes.get k = some (.file b r wr)) := by
  simp only [Ioutil.WriteFile] at h
  split at h
  · simp at h
  · rename_i p c hpc
    have hres := resolve_eq_parent w filename p c hpc
    have hpar : namei w.fold w.inodes (startOf w filename) (splitSlash filename.data).dropLast
        = .ok p ∧ filename.data ≠ [] ∧ (splitSlash filename.data).getLast?.getD [] = c := by
      simp only [resolveParent] at hpc
      split at hpc
      · simp at hpc
      · rename_i hne
        split at hpc
        · simp at hpc
        · rename_i q hq
          simp only [Except.ok.injEq, Prod.mk.injEq] at hpc
          exact ⟨hpc.1 ▸ hq, hne, hpc.2⟩
    obtain ⟨hq, hne, hlast⟩ := hpar
    have hsplit := dropLast_append_getLast _ (splitSlash_ne_nil filename.data)
    rw [hlast] at hsplit
    split at h
    · simp at h
    · rename_i hc
      simp only [not_or] at hc
      obtain ⟨c1, c2, c3⟩ := hc
      -- the walk of the whole name in any extension that keeps `p` a directory
      have walk : ∀ (t2 : Table) (parent : Nat) (es2 : List (String × Nat)) (pw : Bool) (i : Nat),
          Extends w.fold w.inodes t2 → t2.get p = some (.dir parent es2 pw) →
          lookupName w.fold ⟨c⟩ es2 = some i →
          namei w.fold t2 (startOf w filename) (splitSlash filename.data) = .ok i := by
        intro t2 parent es2 pw i he hp2 hl
        rw [← hsplit, namei_append, namei_ext w.fold _ _ he _ _ _ hq]
        simp [namei, hp2, c1, c2, c3, hl]
      split at h
      · simp at h
      · rename_i parent es pw hp
        split at h
        · rename_i i hi
          split at h
          · simp at h
          · rename_i b r wr hfile
            split at h
            · rename_i hwr
              simp only [Except.ok.injEq] at h
              subst h
              have he := Extends.set_file w.fold w.inodes i b data r wr hfile
              have hpi : i ≠ p := by
                intro hip
                rw [hip, hp] at hfile
                simp at hfile
              refine ⟨⟨rfl, rfl, rfl, rfl, rfl, rfl, rfl⟩, he, i, ?_, ?_, ?_⟩
              · simp only [resolve, hne, if_false]
                exact walk _ parent es pw i he (by rw [Table.get_set_ne _ _ _ _ hpi]; exact hp) hi
              · left; exact ⟨r, wr, Table.get_set_same _ _ _⟩
              · intro k hk b2 r2 wr2 hk2
                simp only []
                rw [Table.get_set_ne _ _ _ _ (fun h => hk h.symm)]
                exact hk2
            · simp at h
          · rename_i hnull
            simp only [Except.ok.injEq] at h
            subst h
            refine ⟨⟨rfl, rfl, rfl, rfl, rfl, rfl, rfl⟩, Extends_refl _ _, i, ?_, ?_, ?_⟩
            · simp only [resolve, hne, if_false]
              exact walk _ parent es pw i (Extends_refl _ _) hp hi
            · right; exact hnull
            · intro k _ b2 r2 wr2 hk2; exact hk2
          · simp at h
        · rename_i hnone
          split at h
          · rename_i hpw
            simp only [Except.ok.injEq] at h
            subst h
            have he := Extends.add_entry w.fold w.inodes p parent es pw ⟨c⟩
              (.file data (modeBit perm w.umask 8) (modeBit perm w.umask 7)) hp
            have hfp : w.inodes.fresh ≠ p := by
              intro hfp
              rw [← hfp, Table.get_fresh] at hp
              simp at hp
            refine ⟨⟨rfl, rfl, rfl, rfl, rfl, rfl, rfl⟩, he, w.inodes.fresh, ?_, ?_, ?_⟩
            · simp only [resolve, hne, if_false]
              refine walk _ parent (es ++ [(⟨c⟩, w.inodes.fresh)]) pw _ he
                (Table.get_set_same _ _ _) ?_
              rw [lookupName_append_of_none _ _ _ _ hnone]
              simp [lookupName]
            · left
              refine ⟨modeBit perm w.umask 8, modeBit perm w.umask 7, ?_⟩
              simp only []
              rw [Table.get_set_ne _ _ _ _ (fun h => hfp h.symm), Table.get_set_same]
            · intro k hk b2 r2 wr2 hk2
              simp only []
              have hkp : p ≠ k := by
                intro hpk
                rw [← hpk, hp] at hk2
                simp at hk2
              rw [Table.get_set_ne _ _ _ _ hkp, Table.get_set_ne _ _ _ _ (fun h => hk h.symm)]
              exact hk2
          · simp at h
      · simp at h

/-! ## `os.MkdirAll` -/

/-- The walk of `os.MkdirAll` extends the table and leaves every regular file
as it was. -/
theorem mkdirWalk_ext (fold : String → String) (wr : Bool) (cs : List (List Char)) :
    ∀ (t : Table) (i : Nat),
      Extends fold t (mkdirWalk fold wr t i cs).1 ∧
      ∀ k b r w, t.get k = some (.file b r w) →
        (mkdirWalk fold wr t i cs).1.get k = some (.file b r w) := by
  induction cs with
  | nil =>
    intro t i
    simp only [mkdirWalk]
    split <;> exact ⟨Extends_refl _ _, fun _ _ _ _ h => h⟩
  | cons c cs ih =>
    intro t i
    simp only [mkdirWalk]
    split
    · exact ⟨Extends_refl _ _, fun _ _ _ _ h => h⟩
    · rename_i parent es w hg
      split
      · exact ih t i
      · split
        · exact ih t i
        · split
          · exact ih t parent
          · split
            · rename_i j _
              exact ih t j
            · split
              · have he := Extends.add_entry fold t i parent es w ⟨c⟩ (.dir i [] wr) hg
                obtain ⟨h1, h2⟩ := ih
                  ((t.set t.fresh (.dir i [] wr)).set i (.dir parent (es ++ [(⟨c⟩, t.fresh)]) w))
                  t.fresh
                refine ⟨Extends_trans fold _ _ _ he h1, ?_⟩
                intro k b r w2 hk
                apply h2
                have hki : i ≠ k := by
                  intro hik
                  rw [← hik, hg] at hk
                  simp at hk
                have hkf : t.fresh ≠ k := by
                  intro hfk
                  rw [← hfk, Table.get_fresh] at hk
                  simp at hk
                rw [Table.get_set_ne _ _ _ _ hki, Table.get_set_ne _ _ _ _ hkf]
                exact hk
              · exact ⟨Extends_refl _ _, fun _ _ _ _ h => h⟩
    · exact ⟨Extends_refl _ _, fun _ _ _ _ h => h⟩

/-- `os.MkdirAll` changes the inodes only, extends them, and leaves every
regular file as it was. -/
theorem Os.MkdirAll_ext (w : World) (path : String) (perm : Nat) :
    SameEnv w (Os.MkdirAll w path perm).1 ∧
    Extends w.fold w.inodes (Os.MkdirAll w path perm).1.inodes ∧
    ∀ k b r wr, w.inodes.get k = some (.file b r wr) →
      (Os.MkdirAll w path perm).1.inodes.get k = some (.file b r wr) := by
  simp only [Os.MkdirAll]
  split
  · exact ⟨⟨rfl, rfl, rfl, rfl, rfl, rfl, rfl⟩, Extends_refl _ _, fun _ _ _ _ h => h⟩
  · have h := mkdirWalk_ext w.fold (modeBit perm w.umask 7) (splitSlash path.data) w.inodes
      (startOf w path)
    split
    · rename_i t e heq
      rw [heq] at h
      exact ⟨⟨rfl, rfl, rfl, rfl, rfl, rfl, rfl⟩, h.1, h.2⟩
    · rename_i t j heq
      rw [heq] at h
      exact ⟨⟨rfl, rfl, rfl, rfl, rfl, rfl, rfl⟩, h.1, h.2⟩

theorem SameEnv_trans (w w2 w3 : World) (h12 : SameEnv w w2) (h23 : SameEnv w2 w3) :
    SameEnv w w3 := by
  obtain ⟨a1, a2, a3, a4, a5, a6, a7⟩ := h12
  obtain ⟨b1, b2, b3, b4, b5, b6, b7⟩ := h23
  exact ⟨b1.trans a1, b2.trans a2, b3.trans a3, b4.trans a4, b5.trans a5, b6.trans a6,
    b7.trans a7⟩

/-- `writeFile` changes the inodes only and extends them. -/
theorem writeFile_ext (c : Config) (w : World) (filename body : String) :
    SameEnv w (c.writeFile w filename body).1 ∧
    Extends w.fold w.inodes (c.writeFile w filename body).1.inodes := by
  obtain ⟨hs, he, _⟩ := Os.MkdirAll_ext w (Filepath.Dir filename) 0o700
  simp only [Config.writeFile]
  split
  · rename_i w1 e heq
    rw [heq] at hs he
    exact ⟨hs, he⟩
  · rename_i w1 heq
    rw [heq] at hs he
    split
    · exact ⟨hs, he⟩
    · rename_i w2 hw
      obtain ⟨hs2, he2, _⟩ := Ioutil.WriteFile_ok w1 w2 _ _ _ hw
      refine ⟨SameEnv_trans _ _ _ hs hs2, Extends_trans _ _ _ _ he ?_⟩
      rw [← hs.2.2.2.2.2.2]
      exact he2

/-- After a successful `writeFile`, the name designates a regular file with
the body, or a device. -/
theorem writeFile_ok (c : Config) (w : World) (filename body : String)
    (h : (c.writeFile w filename body).2 = none) :
    ∃ i, resolve (c.writeFile w filename body).1 filename = .ok i ∧
      ((∃ r wr, (c.writeFile w filename body).1.inodes.get i = some (.file body r wr)) ∨
        (c.writeFile w filename body).1.inodes.get i = some .null) := by
  simp only [Config.writeFile] at h ⊢
  split at h
  · simp at h
  · rename_i w1 heq
    split at h
    · simp at h
    · rename_i w2 hw
      obtain ⟨_, _, i, hi, hk, _⟩ := Ioutil.WriteFile_ok w1 w2 _ _ _ hw
      simp only [heq, hw]
      exact ⟨i, hi, hk⟩

/-! ## When `os.Remove` succeeds -/

theorem fileAt_some (w : World) (filename b : String) (r : Bool)
    (h : fileAt w filename = some (b, r)) :
    ∃ i wr, resolve w filename = .ok i ∧ w.inodes.get i = some (.file b r wr) := by
  simp only [fileAt, entryAt] at h
  split at h
  · rename_i body r2 wr he
    simp only [Option.some.injEq, Prod.mk.injEq] at h
    split at he
    · simp at he
    · rename_i i hi
      exact ⟨i, wr, hi, by rw [← h.1, ← h.2]; exact he⟩
  · simp at h

theorem readFile_of_fileAt (c : Config) (w : World) (filename v : String)
    (h : fileAt w filename = some (v, true)) : c.readFile w filename = .ok v := by
  obtain ⟨i, wr, hres, hg⟩ := fileAt_some w filename v true h
  simp [Config.readFile, Ioutil.ReadFile, hres, hg]

theorem readFile_error_of_entryAt_none (c : Config) (w : World) (filename : String)
    (h : entryAt w filename = none) : ∃ e, c.readFile w filename = .error e := by
  simp only [entryAt] at h
  simp only [Config.readFile, Ioutil.ReadFile]
  cases hr : resolve w filename with
  | error e => exact ⟨e, rfl⟩
  | ok i =>
    simp only [hr] at h
    exact ⟨.ESTALE, by simp [h]⟩

theorem LoadGlobal_of_globalFile (c : Config) (w : World) (ns key v : String)
    (h : globalFile c w ns key = some (v, true)) : c.LoadGlobal w ns key = .ok v := by
  simp only [globalFile, globalPath] at h
  simp only [Config.LoadGlobal]
  cases hd : c.configDirectory w with
  | error e => simp [hd] at h
  | ok dir =>
    simp only [hd, Option.bind_some] at h
    exact readFile_of_fileAt c w _ v h

theorem splitSlash_append_slash (x y : List Char) :
    splitSlash (x ++ '/' :: y) = splitSlash x ++ splitSlash y := by
  induction x with
  | nil => simp [splitSlash]
  | cons c xs ih =>
    by_cases hc : c = '/'
    · simp [splitSlash, hc, ih]
    · cases hx : splitSlash xs with
      | nil => exact absurd hx (splitSlash_ne_nil xs)
      | cons h t =>
        have e1 : splitSlash (c :: (xs ++ '/' :: y)) = (c :: h) :: (t ++ splitSlash y) := by
          simp only [splitSlash, hc, if_false]
          rw [ih, hx]
          rfl
        have e2 : splitSlash (c :: xs) = (c :: h) :: t := by
          simp only [splitSlash, hc, if_false]
          rw [hx]
        rw [List.cons_append, e1, e2]
        rfl

theorem splitSlash_of_not_mem (x : List Char) (h : '/' ∉ x) : splitSlash x = [x] := by
  induction x with
  | nil => simp [splitSlash]
  | cons c xs ih =>
    have hc : c ≠ '/' := fun hc => h (by simp [hc])
    have hxs : '/' ∉ xs := fun hm => h (List.mem_cons_of_mem _ hm)
    simp [splitSlash, hc, ih hxs]

theorem not_mem_of_mem_splitSlash (p : List Char) : ∀ e ∈ splitSlash p, '/' ∉ e := by
  induction p with
  | nil => simp [splitSlash]
  | cons c cs ih =>
    intro e he
    by_cases hc : c = '/'
    · simp only [splitSlash, hc, if_true, List.mem_cons] at he
      rcases he with he | he
      · simp [he]
      · exact ih e he
    · simp only [splitSlash, hc, if_false] at he
      cases hx : splitSlash cs with
      | nil => exact absurd hx (splitSlash_ne_nil cs)
      | cons h t =>
        rw [hx] at he ih
        simp only [List.mem_cons] at he
        rcases he with he | he
        · have hh := ih h (by simp)
          rw [he]
          simp only [List.mem_cons, not_or]
          exact ⟨fun h2 => hc h2.symm, hh⟩
        · exact ih e (by simp [he])

theorem splitSlash_joinSlash (N : List (List Char)) (hne : N ≠ [])
    (hs : ∀ e ∈ N, '/' ∉ e) : splitSlash (joinSlash N) = N := by
  induction N with
  | nil => exact absurd rfl hne
  | cons a t ih =>
    cases t with
    | nil => simpa [joinSlash] using splitSlash_of_not_mem a (hs a (by simp))
    | cons b t2 =>
      simp only [joinSlash]
      rw [splitSlash_append_slash, splitSlash_of_not_mem a (hs a (by simp)),
        ih (by simp) (fun e he => hs e (List.mem_cons_of_mem _ he))]
      simp

/-! ## Name resolution is invariant under `path.Clean` -/

theorem cleanStep_inv (r : Bool) (out : List (List Char)) (c : List Char)
    (hi : CleanInv out) (hc : '/' ∉ c) : CleanInv (cleanStep r out c) := by
  unfold cleanStep
  split
  · exact hi
  · split
    · exact hi
    · rename_i h1 h2
      have hpush : CleanInv (c :: out) := by
        intro x hx
        simp only [List.mem_cons] at hx
        rcases hx with hx | hx
        · subst hx; exact ⟨h1, h2, hc⟩
        · exact hi x hx
      split
      · split
        · cases r with
          | true => intro x hx; simp at hx
          | false => exact fun x hx => hpush x (by simpa using hx)
        · rename_i top rest
          split
          · exact hpush
          · intro x hx
            exact hi x (List.mem_cons_of_mem _ hx)
      · exact hpush

theorem foldl_cleanStep_inv (r : Bool) (cs : List (List Char)) :
    ∀ out, CleanInv out → (∀ e ∈ cs, '/' ∉ e) → CleanInv (cs.foldl (cleanStep r) out) := by
  induction cs with
  | nil => intro out hi _; exact hi
  | cons c t ih =>
    intro out hi hs
    simp only [List.foldl_cons]
    exact ih _ (cleanStep_inv r out c hi (hs c (by simp)))
      (fun e he => hs e (List.mem_cons_of_mem _ he))
theorem cleanElems_inv (r : Bool) (p : List Char) : CleanInv (cleanElems r (splitSlash p)) := by
  intro x hx
  simp only [cleanElems, List.mem_reverse] at hx
  exact foldl_cleanStep_inv r (splitSlash p) [] (by intro x hx; simp at hx)
    (not_mem_of_mem_splitSlash p) x hx

theorem head_joinSlash_ne_slash (N : List (List Char)) (hne : N ≠ []) (hi : CleanInv N) :
    joinSlash N ≠ [] ∧ (joinSlash N).head? ≠ some '/' := by
  cases N with
  | nil => exact absurd rfl hne
  | cons a t =>
    obtain ⟨ha, _, hs⟩ := hi a (by simp)
    cases a with
    | nil => exact absurd rfl ha
    | cons x xs =>
      have hx : x ≠ '/' := fun h => hs (by simp [h])
      cases t with
      | nil => simp [joinSlash, hx]
      | cons b t2 => simp [joinSlash, hx]

theorem cleanChars_rooted (p : List Char) (hp : p ≠ []) :
    (cleanChars p).head? = some '/' ↔ p.head? = some '/' := by
  unfold cleanChars
  simp only [hp, if_false]
  split
  · rename_i h; simp [h]
  · rename_i h
    split
    · simp [h]
    · rename_i hne
      have := (head_joinSlash_ne_slash _ hne (cleanElems_inv _ p)).2
      simp only [h, decide_False] at this
      simp [h, this]


/-! ## Paths of simple namespaces and keys -/

theorem simpleName_iff (s : String) :
    simpleName s = true ↔
      s.data ≠ [] ∧ s.data ≠ ['.'] ∧ s.data ≠ ['.', '.'] ∧ '/' ∉ s.data := by
  simp [simpleName]

theorem data_ne_nil_iff (s : String) : s.data ≠ [] ↔ s ≠ "" := by
  constructor
  · intro h hs
    subst hs
    exact h rfl
  · intro h hs
    apply h
    cases s
    simp only at hs
    subst hs
    rfl

/-- With a non-empty first element, `path.Join` of three elements cleans their
concatenation with `/`. -/
theorem Path.Join3_eq (dir ns key : String) (hd : dir.data ≠ []) :
    Path.Join [dir, ns, key] = Path.Clean ⟨dir.data ++ '/' :: (ns.data ++ '/' :: key.data)⟩ := by
  have h := (data_ne_nil_iff dir).mp hd
  simp [Path.Join, List.dropWhile, h, joinSlash]

theorem Path.Join2_eq (dir ns : String) (hd : dir.data ≠ []) :
    Path.Join [dir, ns] = Path.Clean ⟨dir.data ++ '/' :: ns.data⟩ := by
  have h := (data_ne_nil_iff dir).mp hd
  simp [Path.Join, List.dropWhile, h, joinSlash]

theorem dotBase_data (base : String) : (dotBase base).data = '.' :: base.data := by
  simp [dotBase]

theorem splitSlash_three (d a b : List Char) (ha : '/' ∉ a) (hb : '/' ∉ b) :
    splitSlash (d ++ '/' :: (a ++ '/' :: b)) = splitSlash d ++ [a, b] := by
  rw [splitSlash_append_slash, splitSlash_append_slash, splitSlash_of_not_mem a ha,
    splitSlash_of_not_mem b hb]
  rfl

/-- The file of a simple namespace and key lies two names below its root. -/
theorem cleanStep_real (r : Bool) (out : List (List Char)) (c : List Char)
    (h1 : c ≠ []) (h2 : c ≠ ['.']) (h3 : c ≠ ['.', '.']) : cleanStep r out c = c :: out := by
  simp [cleanStep, h1, h2, h3]

theorem cleanElems_append_two (r : Bool) (cs : List (List Char)) (a b : String)
    (ha : simpleName a = true) (hb : simpleName b = true) :
    cleanElems r (cs ++ [a.data, b.data]) = cleanElems r cs ++ [a.data, b.data] := by
  obtain ⟨a1, a2, a3, _⟩ := (simpleName_iff a).mp ha
  obtain ⟨b1, b2, b3, _⟩ := (simpleName_iff b).mp hb
  simp [cleanElems, List.foldl_append, cleanStep_real, a1, a2, a3, b1, b2, b3]

theorem getLast_cleanChars (p : List Char) (hp : p ≠ []) (N0 : List (List Char))
    (a b : List Char)
    (hN : cleanElems (decide (p.head? = some '/')) (splitSlash p) = N0 ++ [a, b]) :
    (splitSlash (cleanChars p)).getLast? = some b := by
  have hinv := cleanElems_inv (decide (p.head? = some '/')) p
  have hsf : ∀ e ∈ cleanElems (decide (p.head? = some '/')) (splitSlash p), '/' ∉ e :=
    fun e he => (hinv e he).2.2
  have hne : cleanElems (decide (p.head? = some '/')) (splitSlash p) ≠ [] := by
    rw [hN]; simp
  have hsp := splitSlash_joinSlash _ hne hsf
  unfold cleanChars
  simp only [hp, if_false]
  split
  · simp only [splitSlash, if_true]
    rw [hsp, hN]
    exact List.getLast?_eq_some_iff.mpr ⟨[] :: (N0 ++ [a]), by simp⟩
  · rw [hsp, hN]
    exact List.getLast?_eq_some_iff.mpr ⟨N0 ++ [a], by simp⟩

/-- The cleaned path of a simple namespace and key ends in the key. -/
theorem getLast_Join3 (dir ns key : String) (hd : dir.data ≠ [])
    (hns : simpleName ns = true) (hkey : simpleName key = true) :
    (splitSlash (Path.Join [dir, ns, key]).data).getLast? = some key.data := by
  have ha := ((simpleName_iff ns).mp hns).2.2.2
  have hb := ((simpleName_iff key).mp hkey).2.2.2
  rw [Path.Join3_eq dir ns key hd]
  simp only [Path.Clean]
  apply getLast_cleanChars _ (by simp) (cleanElems _ (splitSlash dir.data)) ns.data key.data
  rw [splitSlash_three _ _ _ ha hb]
  exact cleanElems_append_two _ _ ns key hns hkey

theorem Path.Join_empty_dotBase (base : String) :
    Path.Join ["", dotBase base] = Path.Clean (dotBase base) := by
  have hb : dotBase base ≠ "" := (data_ne_nil_iff _).mp (by simp [dotBase_data])
  simp [Path.Join, List.dropWhile, hb, joinSlash]

theorem Path.Clean_dotBase_relative (base : String) :
    (Path.Clean (dotBase base)).data.head? ≠ some '/' := by
  intro h
  have := (cleanChars_rooted (dotBase base).data (by simp [dotBase_data])).mp h
  simp [dotBase_data] at this

/-- The output of `path.Clean` so far, last element first: names, above the
`..` a relative path starts with. -/
theorem cleanStep_form (r : Bool) (out : List (List Char)) (c : List Char)
    (h : ∃ k reals, out = reals ++ List.replicate k ['.', '.'] ∧ (r = true → k = 0) ∧
      ∀ x ∈ reals, x ≠ [] ∧ x ≠ ['.'] ∧ x ≠ ['.', '.']) :
    ∃ k reals, cleanStep r out c = reals ++ List.replicate k ['.', '.'] ∧ (r = true → k = 0) ∧
      ∀ x ∈ reals, x ≠ [] ∧ x ≠ ['.'] ∧ x ≠ ['.', '.'] := by
  obtain ⟨k, reals, ho, hr, hreal⟩ := h
  unfold cleanStep
  by_cases h1 : c = []
  · simp only [h1, if_true]
    exact ⟨k, reals, ho, hr, hreal⟩
  by_cases h2 : c = ['.']
  · simp only [h1, h2, if_true, if_false]
    exact ⟨k, reals, ho, hr, hreal⟩
  by_cases h3 : c = ['.', '.']
  · simp only [h1, h2, h3, if_true, if_false]
    cases reals with
    | nil =>
      cases k with
      | zero =>
        simp only [List.replicate, List.append_nil] at ho
        subst ho
        cases r with
        | true => exact ⟨0, [], by simp, by simp, by simp⟩
        | false => exact ⟨1, [], by simp [h3], by simp, by simp⟩
      | succ k2 =>
        simp only [List.nil_append, List.replicate_succ] at ho
        subst ho
        simp only [if_true]
        refine ⟨k2 + 2, [], ?_, ?_, by simp⟩
        · simp [h3, List.replicate_succ]
        · intro hh
          have := hr hh
          simp at this
    | cons top rest =>
      simp only [List.cons_append] at ho
      subst ho
      have htop : top ≠ ['.', '.'] := (hreal top (by simp)).2.2
      simp only [htop, if_false]
      exact ⟨k, rest, rfl, hr, fun x hx => hreal x (List.mem_cons_of_mem _ hx)⟩
  · simp only [h1, h2, h3, if_false]
    refine ⟨k, c :: reals, by simp [ho], hr, ?_⟩
    intro x hx
    rcases List.mem_cons.mp hx with hx | hx
    · subst hx
      exact ⟨h1, h2, h3⟩
    · exact hreal x hx

theorem foldl_cleanStep_form (r : Bool) (cs : List (List Char)) :
    ∀ out, (∃ k reals, out = reals ++ List.replicate k ['.', '.'] ∧ (r = true → k = 0) ∧
        ∀ x ∈ reals, x ≠ [] ∧ x ≠ ['.'] ∧ x ≠ ['.', '.']) →
      ∃ k reals, cs.foldl (cleanStep r) out = reals ++ List.replicate k ['.', '.'] ∧
        (r = true → k = 0) ∧ ∀ x ∈ reals, x ≠ [] ∧ x ≠ ['.'] ∧ x ≠ ['.', '.'] := by
  induction cs with
  | nil => intro out h; exact h
  | cons c t ih =>
    intro out h
    simp only [List.foldl_cons]
    exact ih _ (cleanStep_form r out c h)

theorem foldl_cleanStep_reals (r : Bool) (reals : List (List Char)) :
    ∀ acc, (∀ x ∈ reals, x ≠ [] ∧ x ≠ ['.'] ∧ x ≠ ['.', '.']) →
      reals.foldl (cleanStep r) acc = reals.reverse ++ acc := by
  induction reals with
  | nil => intro acc _; rfl
  | cons c t ih =>
    intro acc h
    obtain ⟨h1, h2, h3⟩ := h c (by simp)
    simp only [List.foldl_cons, cleanStep_real r acc c h1 h2 h3]
    rw [ih _ (fun x hx => h x (List.mem_cons_of_mem _ hx))]
    simp

theorem foldl_cleanStep_dots (k : Nat) :
    ∀ j, (List.replicate k ['.', '.']).foldl (cleanStep false) (List.replicate j ['.', '.'])
      = List.replicate (j + k) ['.', '.'] := by
  induction k with
  | zero => intro j; rfl
  | succ k ih =>
    intro j
    simp only [List.replicate_succ, List.foldl_cons]
    have : cleanStep false (List.replicate j ['.', '.']) ['.', '.']
        = List.replicate (j + 1) ['.', '.'] := by
      cases j with
      | zero => simp [cleanStep]
      | succ j2 => simp [cleanStep, List.replicate_succ]
    rw [this, ih (j + 1)]
    congr 1
    omega

/-- Cleaning the elements of a cleaned path gives them back. -/
theorem foldl_cleanStep_stack (r : Bool) (out : List (List Char))
    (h : ∃ k reals, out = reals ++ List.replicate k ['.', '.'] ∧ (r = true → k = 0) ∧
      ∀ x ∈ reals, x ≠ [] ∧ x ≠ ['.'] ∧ x ≠ ['.', '.']) :
    out.reverse.foldl (cleanStep r) [] = out := by
  obtain ⟨k, reals, ho, hr, hreal⟩ := h
  subst ho
  simp only [List.reverse_append, List.reverse_replicate, List.foldl_append]
  cases r with
  | true =>
    have hk := hr rfl
    subst hk
    simp only [List.replicate, List.foldl_nil]
    rw [foldl_cleanStep_reals true _ [] (fun x hx => hreal x (List.mem_reverse.mp hx))]
    simp
  | false =>
    have := foldl_cleanStep_dots k 0
    simp only [List.replicate, Nat.zero_add] at this
    rw [this, foldl_cleanStep_reals false _ _ (fun x hx => hreal x (List.mem_reverse.mp hx))]
    simp

theorem cleanElems_stack (r : Bool) (cs : List (List Char)) :
    (cleanElems r cs).foldl (cleanStep r) [] = cs.foldl (cleanStep r) [] := by
  have h := foldl_cleanStep_form r cs [] ⟨0, [], by simp, by simp, by simp⟩
  have := foldl_cleanStep_stack r _ h
  simpa [cleanElems] using this

theorem cleanElems_idem (r : Bool) (cs : List (List Char)) :
    cleanElems r (cleanElems r cs) = cleanElems r cs := by
  simp only [cleanElems]
  have := cleanElems_stack r cs
  simp only [cleanElems] at this
  rw [this]

/-- C1 as stated fails: when the global file exists and the process may
write but not read it, `SaveGlobal` returns no error and `LoadGlobal` in the
resulting state fails with `EACCES`. -/
theorem C1_counterexample :
    (tool.SaveGlobal writeOnlyWorld "profiles" "default" "region=us-east-1").2 = none ∧
    tool.LoadGlobal (tool.SaveGlobal writeOnlyWorld "profiles" "default" "region=us-east-1").1
      "profiles" "default" = .error .EACCES := by
  decide

/-- C1, amended.  Round trip: whenever `SaveGlobal(namespace, key, value)`
returns no error and the global path then designates a regular file the
process may read, `LoadGlobal(namespace, key)` in the resulting state returns
exactly `value` with no error. -/
theorem C1_save_load_roundtrip (c : Config) (w : World) (ns key value : String)
    (h : (c.SaveGlobal w ns key value).2 = none)
    (hr : ∃ b, globalFile c (c.SaveGlobal w ns key value).1 ns key = some (b, true)) :
    c.LoadGlobal (c.SaveGlobal w ns key value).1 ns key = .ok value := by
  obtain ⟨b, hb⟩ := hr
  simp only [Config.SaveGlobal] at h hb ⊢
  cases hd : c.configDirectory w with
  | error e => simp [hd] at h
  | ok dir =>
    simp only [hd] at h hb ⊢
    obtain ⟨hs, _⟩ := writeFile_ext c w (Path.Join [dir, ns, key]) value
    have hcd := configDirectory_congr c w _ hs.2.2.2.1 hs.2.2.2.2.1
    obtain ⟨i, hi, hk⟩ := writeFile_ok c w (Path.Join [dir, ns, key]) value h
    simp only [globalFile, globalPath, hcd, hd, Option.bind_some] at hb
    obtain ⟨i2, wr2, hi2, hg2⟩ := fileAt_some _ _ b true hb
    rw [hi] at hi2
    simp only [Except.ok.injEq] at hi2
    subst hi2
    simp only [Config.LoadGlobal, hcd, hd, Config.readFile, Ioutil.ReadFile, hi]
    rcases hk with ⟨r, wr, hk⟩ | hk
    · rw [hk] at hg2
      simp only [Option.some.injEq, Inode.file.injEq] at hg2
      simp [hk, hg2.2.1]
    · rw [hk] at hg2
      simp at hg2

/-- Witness of C1: on `sampleWorld` the save creates the file, which is
readable, and the load returns the value; also with the empty value. -/
theorem C1_save_load_roundtrip_witness :
    tool.LoadGlobal (tool.SaveGlobal sampleWorld "profiles" "default" "region=us-east-1").1
      "profiles" "default" = .ok "region=us-east-1" ∧
    tool.LoadGlobal (tool.SaveGlobal sampleWorld "profiles" "default" "").1
      "profiles" "default" = .ok "" :=
  ⟨C1_save_load_roundtrip tool sampleWorld "profiles" "default" "region=us-east-1" (by decide)
      ⟨"region=us-east-1", by decide⟩,
    C1_save_load_roundtrip tool sampleWorld "profiles" "default" "" (by decide) ⟨"", by decide⟩⟩

/-- C2 as stated fails: when the local file holds `v1` but the process may not
read it, and the global file holds `v2`, `LoadLocalOrGlobal` returns `v2`. -/
theorem C2_counterexample :
    localFile tool unreadableLocalWorld "profiles" "default" = some ("v1", false) ∧
    globalFile tool unreadableLocalWorld "profiles" "default" = some ("v2", true) ∧
    tool.LoadLocalOrGlobal unreadableLocalWorld "profiles" "default" = .ok "v2" := by
  decide

/-- C2, amended.  Local takes priority: when the local-scope file holds `v1`
and the process may read it, and the global-scope file holds a different
value `v2`, `LoadLocalOrGlobal` returns `v1` with no error. -/
theorem C2_local_priority (c : Config) (w : World) (ns key v1 v2 : String) (r2 : Bool)
    (h1 : localFile c w ns key = some (v1, true)) (_h2 : globalFile c w ns key = some (v2, r2))
    (_hne : v1 ≠ v2) : c.LoadLocalOrGlobal w ns key = .ok v1 := by
  simp only [localFile, localPath] at h1
  simp only [Config.LoadLocalOrGlobal]
  cases hd : c.localConfigDirectory w with
  | error e => simp [hd] at h1
  | ok dir =>
    simp only [hd, Option.bind_some] at h1 ⊢
    rw [readFile_of_fileAt c w _ v1 h1]

/-- Witness of C2: `bothWorld` holds a readable `v1` locally and `v2`
globally. -/
theorem C2_local_priority_witness :
    localFile tool bothWorld "profiles" "default" = some ("v1", true) ∧
    globalFile tool bothWorld "profiles" "default" = some ("v2", true) ∧
    tool.LoadLocalOrGlobal bothWorld "profiles" "default" = .ok "v1" :=
  ⟨by decide, by decide,
    C2_local_priority tool bothWorld "profiles" "default" "v1" "v2" true (by decide) (by decide)
      (by decide)⟩

/-- C3 as stated fails: for a process whose working directory cannot be
determined, the local read attempt fails, the global file holds a readable
`v2`, and `LoadLocalOrGlobal` returns the error of `os.Getwd` instead of what
`LoadGlobal` returns.  And with only a global value present that the process
may not read, `LoadLocalOrGlobal` does not return it. -/
theorem C3_counterexample :
    (localRead tool noCwdWorld "profiles" "default" = .error .ENOENT ∧
      tool.LoadGlobal noCwdWorld "profiles" "default" = .ok "v2" ∧
      tool.LoadLocalOrGlobal noCwdWorld "profiles" "default" = .error .ENOENT) ∧
    (localEntry tool unreadableGlobalWorld "profiles" "default" = none ∧
      globalFile tool unreadableGlobalWorld "profiles" "default" = some ("v2", false) ∧
      tool.LoadLocalOrGlobal unreadableGlobalWorld "profiles" "default" = .error .EACCES) := by
  decide

/-- C3, amended.  When the working directory is determined (`dir` is the local
root) and reading the local file fails for any reason, `LoadLocalOrGlobal`
returns exactly what `LoadGlobal` returns; in particular with nothing at the
local path and a global file holding `v2` that the process may read, it
returns `v2`.  When the working directory cannot be determined,
`LoadLocalOrGlobal` returns that error. -/
theorem C3_load_fallback (c : Config) (w : World) (ns key : String) :
    (∀ dir e, c.localConfigDirectory w = .ok dir →
      c.readFile w (Path.Join [dir, ns, key]) = .error e →
      c.LoadLocalOrGlobal w ns key = c.LoadGlobal w ns key) ∧
    (∀ dir v2, c.localConfigDirectory w = .ok dir → localEntry c w ns key = none →
      globalFile c w ns key = some (v2, true) → c.LoadLocalOrGlobal w ns key = .ok v2) ∧
    (∀ e, c.localConfigDirectory w = .error e → c.LoadLocalOrGlobal w ns key = .error e) := by
  refine ⟨?_, ?_, ?_⟩
  · intro dir e hd hr
    simp [Config.LoadLocalOrGlobal, hd, hr]
  · intro dir v2 hd hl hg
    simp only [localEntry, localPath, hd, Option.bind_some] at hl
    obtain ⟨e, he⟩ := readFile_error_of_entryAt_none c w _ hl
    simp only [Config.LoadLocalOrGlobal, hd, he]
    exact LoadGlobal_of_globalFile c w ns key v2 hg
  · intro e hd
    simp [Config.LoadLocalOrGlobal, hd]

/-- Witness of C3: in `globalOnlyWorld` the local read fails with `ENOENT` and
`LoadLocalOrGlobal` returns the global value; in `noCwdWorld` it returns the
error of `os.Getwd`. -/
theorem C3_load_fallback_witness :
    tool.localConfigDirectory globalOnlyWorld = .ok "/work/.tool" ∧
    tool.readFile globalOnlyWorld (Path.Join ["/work/.tool", "profiles", "default"])
      = .error .ENOENT ∧
    tool.LoadLocalOrGlobal globalOnlyWorld "profiles" "default"
      = tool.LoadGlobal globalOnlyWorld "profiles" "default" ∧
    tool.LoadLocalOrGlobal globalOnlyWorld "profiles" "default" = .ok "v2" ∧
    tool.LoadLocalOrGlobal noCwdWorld "profiles" "default" = .error .ENOENT :=
  ⟨by decide, by decide,
    (C3_load_fallback tool globalOnlyWorld "profiles" "default").1 "/work/.tool" .ENOENT
      (by decide) (by decide),
    (C3_load_fallback tool globalOnlyWorld "profiles" "default").2.1 "/work/.tool" "v2"
      (by decide) (by decide) (by decide),
    (C3_load_fallback tool noCwdWorld "profiles" "default").2.2 .ENOENT (by decide)⟩

/-- C6. Listing order: whenever the path of the global-scope directory of
`namespace` designates a directory with entries `es`, `List(namespace)`
succeeds and returns the names of `es` (files and subdirectories alike, each
entry once) in increasing lexicographic order; and the keys `b`, `a`, `c`
saved in any of the six orders on an empty store list as `a`, `b`, `c`. -/
theorem C6_list_sorted :
    (∀ (c : Config) (w : World) (ns gdir : String) (i parent : Nat)
        (es : List (String × Nat)) (wr : Bool),
      c.configDirectory w = .ok gdir → resolve w (Path.Join [gdir, ns]) = .ok i →
      w.inodes.get i = some (.dir parent es wr) →
      ∃ keys, c.List w ns = .ok keys ∧ keys.Sorted (fun a b => a ≤ b) ∧
        keys.Perm (es.map Prod.fst)) ∧
    (∀ order ∈ [["a", "b", "c"], ["a", "c", "b"], ["b", "a", "c"], ["b", "c", "a"],
        ["c", "a", "b"], ["c", "b", "a"]],
      tool.List (saveAll tool sampleWorld (order.map (fun k => ("ns", k, "v")))) "ns"
        = .ok ["a", "b", "c"]) := by
  refine ⟨?_, by decide⟩
  intro c w ns gdir i parent es wr hgd hp hget
  refine ⟨Sort.Strings (((es.map (entryInfo w.inodes)).insertionSort
    (fun a b => strLE a.Name b.Name)).map (fun file => file.Name)), ?_, ?_, ?_⟩
  · simp [Config.List, hgd, Ioutil.ReadDir, hp, hget]
  · exact (Sort.Strings_sorted _).1
  · refine (Sort.Strings_sorted _).2.trans ?_
    rw [← map_Name_entryInfo w.inodes es]
    exact (List.perm_insertionSort _ _).map _

/-- Witness of C6: in `listWorld` the directory holds the file `b`, the
subdirectory `a` and the file `c`, in that directory order. -/
theorem C6_list_sorted_witness :
    ∃ keys, tool.List listWorld "ns" = .ok keys ∧ keys.Sorted (fun a b => a ≤ b) ∧
      keys.Perm ["b", "a", "c"] :=
  C6_list_sorted.1 tool listWorld "ns" "/home/u/.tool" 5 4 [("b", 6), ("a", 7), ("c", 8)] true
    (by decide) (by decide) rfl

/-- C8. Delete then load: after `DeleteGlobal(namespace, key)` returns no
error, `LoadGlobal(namespace, key)` fails with `ENOENT` (the spec's
`NotFound`), for every world, namespace and key. -/
theorem C8_delete_then_load (c : Config) (w : World) (ns key : String)
    (h : (c.DeleteGlobal w ns key).2 = none) :
    c.LoadGlobal (c.DeleteGlobal w ns key).1 ns key = .error .ENOENT ∧
    Error.ENOENT.IsNotExist = true := by
  refine ⟨?_, rfl⟩
  simp only [Config.DeleteGlobal] at h ⊢
  cases hd : c.configDirectory w with
  | error e => simp [hd] at h
  | ok dir =>
    simp only [hd] at h ⊢
    cases hr : Os.Remove w (Path.Join [dir, ns, key]) with
    | error e => simp [hr] at h
    | ok w2 =>
      obtain ⟨_, _, _, _, _, _, _, _, _, _, _, _, _, _, hen, hpl, _, _⟩ := Os.Remove_ok w w2 _ hr
      simp only [Config.LoadGlobal, configDirectory_congr c w w2 hen hpl, hd, Config.readFile,
        ReadFile_after_Remove w w2 _ hr]

/-- Witness of C8 on the spec's scenario: base `tool`, namespace `profiles`,
key `default`, saved with `region=us-east-1`, then deleted. -/
theorem C8_delete_then_load_witness :
    (tool.DeleteGlobal (tool.SaveGlobal sampleWorld "profiles" "default" "region=us-east-1").1
      "profiles" "default").2 = none ∧
    tool.LoadGlobal (tool.DeleteGlobal
      (tool.SaveGlobal sampleWorld "profiles" "default" "region=us-east-1").1
      "profiles" "default").1 "profiles" "default" = .error .ENOENT :=
  ⟨by decide,
    (C8_delete_then_load tool
      (tool.SaveGlobal sampleWorld "profiles" "default" "region=us-east-1").1
      "profiles" "default" (by decide)).1⟩

/-- C9 as stated fails.  With `HOME` unset, `homeDirectory` of `config.go`
(`homedir.Dir()`) returns the home of the user database: the global root is
the absolute `/home/u/.tool`, and `SaveGlobal`, `LoadGlobal`, `List` and
`DeleteGlobal` work on it.  And when the user database gives no home,
home-directory resolution does report an error. -/
theorem C9_counterexample :
    (Os.Getenv noHomeWorld "HOME" = "" ∧
      tool.homeDirectory noHomeWorld = .ok "/home/u" ∧
      tool.configDirectory noHomeWorld = .ok "/home/u/.tool" ∧
      (tool.SaveGlobal noHomeWorld "profiles" "default" "v").2 = none ∧
      tool.LoadGlobal (tool.SaveGlobal noHomeWorld "profiles" "default" "v").1
        "profiles" "default" = .ok "v" ∧
      tool.List (tool.SaveGlobal noHomeWorld "profiles" "default" "v").1 "profiles"
        = .ok ["default"] ∧
      (tool.DeleteGlobal (tool.SaveGlobal noHomeWorld "profiles" "default" "v").1
        "profiles" "default").2 = none) ∧
    (Os.Getenv noHomeDbWorld "HOME" = "" ∧
      tool.homeDirectory noHomeDbWorld = .error (.homedir "no home directory")) := by
  decide

/-- C9, amended.  When the `HOME` environment variable is unset,
`homeDirectory` of `config.go` returns what the lookup of `homedir.Dir` in
the user database returns.  If that is a home, the global root is
`<home>/.<base>`, as with `HOME` set.  If that is an error, `configDirectory`
returns it and `SaveGlobal`, `LoadGlobal`, `DeleteGlobal` and `List` return it
without touching the filesystem.  The one-result `homeDirectory` of
`posix.go` returns the empty string with no error, and the root built from
that, `.<base>` cleaned, is a relative path. -/
theorem C9_unset_home (c : Config) (w : World) (h : Os.Getenv w "HOME" = "") :
    c.homeDirectory w = w.homedir ∧
    (∀ home, w.homedir = .ok home →
      c.configDirectory w = .ok (Path.Join [home, dotBase c.Base])) ∧
    (∀ e, w.homedir = .error e →
      c.configDirectory w = .error e ∧
      ∀ ns key v, c.SaveGlobal w ns key v = (w, some e) ∧ c.LoadGlobal w ns key = .error e ∧
        c.DeleteGlobal w ns key = (w, some e) ∧ c.List w ns = .error e) ∧
    (c.homeDirectoryPosix w = "" ∧
      Path.Join [c.homeDirectoryPosix w, dotBase c.Base] = Path.Clean (dotBase c.Base) ∧
      (Path.Clean (dotBase c.Base)).data.head? ≠ some '/') := by
  have hh : c.homeDirectory w = w.homedir := by
    simp [Config.homeDirectory, Homedir.Dir, h]
  refine ⟨hh, ?_, ?_, ?_⟩
  · intro home hd
    simp [Config.configDirectory, hh, hd]
  · intro e hd
    have hc : c.configDirectory w = .error e := by
      simp [Config.configDirectory, hh, hd]
    refine ⟨hc, ?_⟩
    intro ns key v
    simp [Config.SaveGlobal, Config.LoadGlobal, Config.DeleteGlobal, Config.List, hc]
  · refine ⟨h, ?_, Path.Clean_dotBase_relative c.Base⟩
    simp only [Config.homeDirectoryPosix, h]
    exact Path.Join_empty_dotBase c.Base

/-- Witness of C9: `noHomeWorld`, where the user database gives `/home/u`, and
`noHomeDbWorld`, where it gives an error. -/
theorem C9_unset_home_witness :
    Os.Getenv noHomeWorld "HOME" = "" ∧
    tool.configDirectory noHomeWorld = .ok (Path.Join ["/home/u", dotBase tool.Base]) ∧
    (tool.configDirectory noHomeDbWorld = .error (.homedir "no home directory") ∧
      ∀ ns key v,
        tool.SaveGlobal noHomeDbWorld ns key v
          = (noHomeDbWorld, some (.homedir "no home directory")) ∧
        tool.LoadGlobal noHomeDbWorld ns key = .error (.homedir "no home directory") ∧
        tool.DeleteGlobal noHomeDbWorld ns key
          = (noHomeDbWorld, some (.homedir "no home directory")) ∧
        tool.List noHomeDbWorld ns = .error (.homedir "no home directory")) :=
  ⟨by decide, (C9_unset_home tool noHomeWorld (by decide)).2.1 "/home/u" rfl,
    (C9_unset_home tool noHomeDbWorld (by decide)).2.2.1 (.homedir "no home directory") rfl⟩

